import Mathlib

/-!
Verification of the text-to-speech pipeline of the lmstudioApp repository.

The development shallowly embeds the core functions of `src/app.py`
(`split_text_for_tts`, `synthesize_voice`, `synthesize_voice_full`) and the
clipping step shared by `build_summary_prompt` (src/app.py) and
`build_prompt` (src/url_to_summary_lmstudio.py).  Text is represented as
`List Char`, audio byte buffers as `List Nat`, and the remote service as an
explicit oracle argument, so that every definition is executable and every
theorem is about the translated code.
-/

namespace LmStudioApp

/-- Whitespace test used by the Python methods `str.strip` and `str.isspace`
for the character ranges that occur in this code base (ASCII space, tab,
newline, carriage return, vertical tab, form feed). -/
def pyIsSpace (c : Char) : Bool :=
  c = ' ' || c = '\t' || c = '\n' || c = '\r' || c = '\x0b' || c = '\x0c'

/-- Model of the Python method `str.strip`: remove leading and trailing
whitespace characters. -/
def pyStrip (l : List Char) : List Char :=
  ((l.dropWhile pyIsSpace).reverse.dropWhile pyIsSpace).reverse

/-- The delimiter priority list of `split_text_for_tts` (src/app.py line 167). -/
def delims : List Char := ['。', '！', '？', '!', '?', '、', '\n']

/-- Model of the Python expression `current.rfind(d)` for a one-character
needle: the greatest index at which `d` occurs, and `-1` when it does not
occur. -/
def rfindChar (d : Char) : List Char → Int
  | [] => -1
  | c :: rest =>
    let r := rfindChar d rest
    if 0 ≤ r then r + 1 else if c = d then 0 else -1

/-- Model of the backward delimiter search of `split_text_for_tts`
(src/app.py lines 182-186): fold `max` over `current.rfind(d)` for each
delimiter, starting from `-1`. -/
def lastDelim (cs : List Char) : Int :=
  delims.foldl (fun acc d => max acc (rfindChar d cs)) (-1)

/-- Model of the character-scanning loop of `split_text_for_tts`
(src/app.py lines 169-196).  The first argument of the recursion is the
remaining input (`text[i:]`), the second is the accumulated buffer
`current`; the trailing non-whitespace buffer is emitted at the end. -/
def splitLoop (maxLen : ℕ) : List Char → List Char → List (List Char)
  | [], current => if pyStrip current ≠ [] then [pyStrip current] else []
  | c :: rest, current =>
    let cur := current ++ [c]
    if c ∈ delims ∧ 30 ≤ cur.length then
      if cur.length ≤ maxLen then pyStrip cur :: splitLoop maxLen rest []
      else splitLoop maxLen rest cur
    else if maxLen ≤ cur.length then
      if 30 < lastDelim cur then
        pyStrip (cur.take ((lastDelim cur).toNat + 1)) ::
          splitLoop maxLen rest (cur.drop ((lastDelim cur).toNat + 1))
      else pyStrip cur :: splitLoop maxLen rest []
    else splitLoop maxLen rest cur

/-- Model of `split_text_for_tts(text, max_len)` (src/app.py lines 159-198):
a text of length at most `max_len` is returned unchanged as a single chunk;
otherwise the scanning loop runs and empty chunks are filtered out at the
end (`[c for c in chunks if c]`). -/
def split_text_for_tts (text : List Char) (maxLen : ℕ) : List (List Char) :=
  if text.length ≤ maxLen then [text]
  else (splitLoop maxLen text []).filter (fun c => !c.isEmpty)

example : split_text_for_tts "abc".data 200 = ["abc".data] := by decide
example : split_text_for_tts [] 200 = [[]] := by decide
example : split_text_for_tts ['a', 'b'] 0 = [['a'], ['b']] := by decide

/-- The non-whitespace content of a character list: whitespace characters
are filtered out.  Two texts with the same `removeWs` image agree on every
non-whitespace character, with multiplicity and in order. -/
def removeWs (l : List Char) : List Char := l.filter (fun c => !pyIsSpace c)

theorem removeWs_append (a b : List Char) :
    removeWs (a ++ b) = removeWs a ++ removeWs b :=
  List.filter_append ..

theorem removeWs_dropWhile (l : List Char) :
    removeWs (l.dropWhile pyIsSpace) = removeWs l := by
  induction l with
  | nil => rfl
  | cons c rest ih =>
    by_cases h : pyIsSpace c = true
    · rw [List.dropWhile_cons, if_pos h, ih]
      show removeWs rest = removeWs (c :: rest)
      simp [removeWs, List.filter_cons, h]
    · rw [List.dropWhile_cons, if_neg (by simp [h])]

theorem removeWs_reverse (l : List Char) :
    removeWs l.reverse = (removeWs l).reverse :=
  List.filter_reverse ..

theorem removeWs_pyStrip (l : List Char) : removeWs (pyStrip l) = removeWs l := by
  unfold pyStrip
  rw [removeWs_reverse, removeWs_dropWhile, removeWs_reverse,
    removeWs_dropWhile, List.reverse_reverse]

theorem pyStrip_sublist (l : List Char) : List.Sublist (pyStrip l) l := by
  unfold pyStrip
  have s1 : List.Sublist ((l.dropWhile pyIsSpace).reverse.dropWhile pyIsSpace).reverse
      (l.dropWhile pyIsSpace).reverse.reverse :=
    List.reverse_sublist.mpr (List.dropWhile_sublist _)
  rw [List.reverse_reverse] at s1
  exact s1.trans (List.dropWhile_sublist _)

theorem pyStrip_length_le (l : List Char) : (pyStrip l).length ≤ l.length :=
  (pyStrip_sublist l).length_le

theorem pyStrip_eq_nil_of_all_space (l : List Char)
    (h : ∀ c ∈ l, pyIsSpace c = true) : pyStrip l = [] := by
  have h1 : l.dropWhile pyIsSpace = [] := List.dropWhile_eq_nil_iff.mpr h
  unfold pyStrip
  rw [h1]
  rfl

theorem removeWs_ne_nil_of_pyStrip_ne_nil (l : List Char)
    (h : pyStrip l ≠ []) : removeWs l ≠ [] := by
  intro hws
  apply h
  apply pyStrip_eq_nil_of_all_space
  intro c hc
  by_contra hcs
  have : c ∈ removeWs l := List.mem_filter.mpr ⟨hc, by simpa using hcs⟩
  simp [hws] at this

/-- Every chunk emitted by the scanning loop is the `strip` of some text,
so a surviving (non-empty) chunk always contains a non-whitespace
character. -/
theorem splitLoop_stripped (maxLen : ℕ) :
    ∀ rest current : List Char, ∀ c ∈ splitLoop maxLen rest current,
      ∃ x, c = pyStrip x := by
  intro rest
  induction rest with
  | nil =>
    intro current c hc
    simp only [splitLoop] at hc
    split at hc
    · simp at hc
      exact ⟨current, hc⟩
    · simp at hc
  | cons ch rest ih =>
    intro current c hc
    simp only [splitLoop] at hc
    split_ifs at hc with h1 h2 h3 h4
    · rcases List.mem_cons.mp hc with h | h
      · exact ⟨current ++ [ch], h⟩
      · exact ih _ _ h
    · exact ih _ _ hc
    · rcases List.mem_cons.mp hc with h | h
      · exact ⟨(current ++ [ch]).take ((lastDelim (current ++ [ch])).toNat + 1), h⟩
      · exact ih _ _ h
    · rcases List.mem_cons.mp hc with h | h
      · exact ⟨current ++ [ch], h⟩
      · exact ih _ _ h
    · exact ih _ _ hc

/-- Content preservation invariant of the scanning loop: joining the
emitted chunks reproduces, up to removal of whitespace, the buffered plus
remaining input, and never adds, duplicates or reorders characters. -/
theorem splitLoop_content (maxLen : ℕ) :
    ∀ rest current : List Char,
      removeWs (splitLoop maxLen rest current).flatten =
        removeWs (current ++ rest) ∧
      List.Sublist (splitLoop maxLen rest current).flatten (current ++ rest) := by
  intro rest
  induction rest with
  | nil =>
    intro current
    simp only [splitLoop]
    split
    · constructor
      · simp [removeWs_pyStrip]
      · simpa using pyStrip_sublist current
    · rename_i h
      rw [not_ne_iff] at h
      have h2 : removeWs current = [] := by
        have h3 := removeWs_pyStrip current
        rw [h] at h3
        exact h3.symm
      constructor
      · rw [List.append_nil]
        exact h2.symm
      · simp
  | cons ch rest ih =>
    intro current
    have hsplit : current ++ ch :: rest = (current ++ [ch]) ++ rest := by simp
    simp only [splitLoop]
    split_ifs with h1 h2 h3 h4
    · -- delimiter within maxLen: emit strip of the buffer, restart
      refine ⟨?_, ?_⟩
      · rw [hsplit, List.flatten_cons, removeWs_append, removeWs_pyStrip,
          (ih []).1, List.nil_append, ← removeWs_append]
      · rw [hsplit, List.flatten_cons]
        exact List.Sublist.append (pyStrip_sublist (current ++ [ch]))
          (by simpa using (ih []).2)
    · -- delimiter but buffer longer than maxLen: keep accumulating
      rw [hsplit]
      exact ih (current ++ [ch])
    · -- forced cut at the last delimiter position
      set cur := current ++ [ch] with hcur
      set k := (lastDelim cur).toNat + 1 with hk
      refine ⟨?_, ?_⟩
      · rw [hsplit, List.flatten_cons, removeWs_append, removeWs_pyStrip,
          (ih (cur.drop k)).1, ← removeWs_append, ← List.append_assoc,
          List.take_append_drop]
      · rw [hsplit, List.flatten_cons]
        have hsub := List.Sublist.append (pyStrip_sublist (cur.take k))
          (ih (cur.drop k)).2
        rw [← List.append_assoc, List.take_append_drop] at hsub
        exact hsub
    · -- forced cut with no usable delimiter: emit the whole buffer
      refine ⟨?_, ?_⟩
      · rw [hsplit, List.flatten_cons, removeWs_append, removeWs_pyStrip,
          (ih []).1, List.nil_append, ← removeWs_append]
      · rw [hsplit, List.flatten_cons]
        exact List.Sublist.append (pyStrip_sublist (current ++ [ch]))
          (by simpa using (ih []).2)
    · -- no delimiter, below maxLen: keep accumulating
      rw [hsplit]
      exact ih (current ++ [ch])

theorem flatten_filter_ne_nil (l : List (List Char)) :
    (l.filter (fun c => !c.isEmpty)).flatten = l.flatten := by
  induction l with
  | nil => rfl
  | cons x rest ih =>
    by_cases hx : x.isEmpty
    · have : x = [] := by simpa [List.isEmpty_iff] using hx
      simp [List.filter_cons, hx, ih, this]
    · simp [List.filter_cons, hx, ih]

/-- Length invariant of the scanning loop: as long as the accumulated
buffer is shorter than `maxLen` (which the loop maintains for
`maxLen ≥ 1`), every emitted chunk has length at most `maxLen`. -/
theorem splitLoop_length_le (maxLen : ℕ) (hm : 1 ≤ maxLen) :
    ∀ rest current : List Char, current.length < maxLen →
      ∀ c ∈ splitLoop maxLen rest current, c.length ≤ maxLen := by
  intro rest
  induction rest with
  | nil =>
    intro current hcur c hc
    simp only [splitLoop] at hc
    split at hc
    · simp at hc
      subst hc
      exact le_trans (pyStrip_length_le _) (le_of_lt hcur)
    · simp at hc
  | cons ch rest ih =>
    intro current hcur c hc
    have hlen : (current ++ [ch]).length ≤ maxLen := by
      simp only [List.length_append, List.length_cons, List.length_nil]
      omega
    simp only [splitLoop] at hc
    split_ifs at hc with h1 h2 h3
    · rcases List.mem_cons.mp hc with h | h
      · subst h
        exact le_trans (pyStrip_length_le _) hlen
      · exact ih [] (by simpa using hm) _ h
    · rcases List.mem_cons.mp hc with h | h
      · subst h
        have ht : (List.take ((lastDelim (current ++ [ch])).toNat + 1)
            (current ++ [ch])).length ≤ (current ++ [ch]).length := by
          rw [List.length_take]
          omega
        exact le_trans (pyStrip_length_le _) (le_trans ht hlen)
      · apply ih _ _ _ h
        rw [List.length_drop]
        omega
    · rcases List.mem_cons.mp hc with h | h
      · subst h
        exact le_trans (pyStrip_length_le _) hlen
      · exact ih [] (by simpa using hm) _ h
    · exact ih _ (by omega) _ hc

/-- Chunk length bound of `split_text_for_tts`: for any positive `maxLen`
every returned chunk has at most `maxLen` characters. -/
theorem split_length_le (text : List Char) (maxLen : ℕ) (hm : 1 ≤ maxLen) :
    ∀ c ∈ split_text_for_tts text maxLen, c.length ≤ maxLen := by
  intro c hc
  unfold split_text_for_tts at hc
  split at hc
  · rename_i h
    simp at hc
    subst hc
    exact h
  · exact splitLoop_length_le maxLen hm text [] (by simpa using hm) c
      (List.mem_filter.mp hc).1

/-- C3: for every input text and every maxLen, concatenating the chunks of
`split_text_for_tts`, in order, reproduces the original text up to the
whitespace trimmed at chunk boundaries: the non-whitespace characters are
exactly those of the input, in the same order and multiplicity, and the
concatenation is a subsequence of the input (nothing is added, duplicated
or reordered). -/
theorem split_text_reassembles (text : List Char) (maxLen : ℕ) :
    removeWs (split_text_for_tts text maxLen).flatten = removeWs text ∧
    List.Sublist (split_text_for_tts text maxLen).flatten text := by
  unfold split_text_for_tts
  split
  · simp
  · rw [flatten_filter_ne_nil]
    have h := splitLoop_content maxLen text []
    simpa using h

/-- C4 counterexample: the short-input path of `split_text_for_tts` returns
the raw input verbatim, so the empty input yields a list containing an
empty chunk, and with maxLen = 0 every returned chunk is longer than
maxLen. -/
theorem split_chunk_invariant_cex :
    split_text_for_tts [] 200 = [[]] ∧
    split_text_for_tts ['a', 'b'] 0 = [['a'], ['b']] := by decide

/-- C4 (amended): for every text and every maxLen ≥ 1, each chunk returned
by `split_text_for_tts` has length at most maxLen; when the input is
strictly longer than maxLen (the splitting path), no returned chunk is
empty or whitespace-only.  When the input length is at most maxLen the
input itself is the single chunk, which may be empty or whitespace-only. -/
theorem split_chunk_invariant (text : List Char) (maxLen : ℕ) (hm : 1 ≤ maxLen) :
    (∀ c ∈ split_text_for_tts text maxLen, c.length ≤ maxLen) ∧
    (maxLen < text.length →
      ∀ c ∈ split_text_for_tts text maxLen, c ≠ [] ∧ removeWs c ≠ []) := by
  refine ⟨split_length_le text maxLen hm, ?_⟩
  intro hlong c hc
  unfold split_text_for_tts at hc
  rw [if_neg (by omega)] at hc
  have hmem := List.mem_filter.mp hc
  have hne : c ≠ [] := by
    intro hnil
    simp [hnil] at hmem
  obtain ⟨x, hx⟩ := splitLoop_stripped maxLen text [] c hmem.1
  refine ⟨hne, ?_⟩
  have : removeWs x ≠ [] :=
    removeWs_ne_nil_of_pyStrip_ne_nil x (by rw [← hx]; exact hne)
  rw [hx, removeWs_pyStrip]
  exact this

theorem split_chunk_invariant_witness :
    1 ≤ 3 ∧
    ((∀ c ∈ split_text_for_tts "abcde".data 3, c.length ≤ 3) ∧
      (3 < "abcde".data.length →
        ∀ c ∈ split_text_for_tts "abcde".data 3, c ≠ [] ∧ removeWs c ≠ [])) :=
  ⟨by decide, split_chunk_invariant "abcde".data 3 (by decide)⟩

/-- C5 counterexample: the single chunk returned for a short input is the
input itself, not its whitespace-trimmed form. -/
theorem split_short_cex :
    split_text_for_tts " a ".data 200 = [" a ".data] ∧
    pyStrip " a ".data = "a".data ∧ " a ".data ≠ "a".data := by decide

/-- C5 (amended): for every input text of length at most maxLen,
`split_text_for_tts` returns exactly one chunk, equal to the input text
verbatim (no whitespace trimming on this path). -/
theorem split_short_text (text : List Char) (maxLen : ℕ)
    (h : text.length ≤ maxLen) : split_text_for_tts text maxLen = [text] := by
  unfold split_text_for_tts
  rw [if_pos h]

theorem split_short_text_witness :
    " a ".data.length ≤ 200 ∧ split_text_for_tts " a ".data 200 = [" a ".data] :=
  ⟨by decide, split_short_text " a ".data 200 (by decide)⟩

/-- C8 counterexample: there is no configuration validation in
`split_text_for_tts`.  The minimum viable chunk length is the hard-coded
literal 30 (not a parameter), and a call with maxLen = 10 < 2 * 30 is not
rejected: it returns an ordinary chunk list. -/
theorem split_config_cex :
    split_text_for_tts "abcdefghijklmno".data 10 =
      ["abcdefghij".data, "klmno".data] := by decide

/-- C8 (amended): `split_text_for_tts` rejects nothing at call time; the
minimum viable chunk length is fixed at 30 and maxLen below twice that
minimum is accepted, the function returning an ordinary chunk list that
still satisfies the per-chunk length bound whenever maxLen ≥ 1. -/
theorem split_no_config_validation (text : List Char) (maxLen : ℕ)
    (_hlow : maxLen < 60) (hm : 1 ≤ maxLen) :
    ∀ c ∈ split_text_for_tts text maxLen, c.length ≤ maxLen :=
  split_length_le text maxLen hm

theorem split_no_config_validation_witness :
    10 < 60 ∧ 1 ≤ 10 ∧
    ∀ c ∈ split_text_for_tts "abcdefghijklmno".data 10, c.length ≤ 10 :=
  ⟨by decide, by decide,
    split_no_config_validation "abcdefghijklmno".data 10 (by decide) (by decide)⟩

/-- Base-two logarithm with structural fuel recursion (so that concrete
values reduce inside the kernel): `log2fuel fuel n` is the floor of the
base-two logarithm of `n` whenever `1 ≤ n ≤ fuel`. -/
def log2fuel : ℕ → ℕ → ℕ
  | 0, _ => 0
  | fuel + 1, n => if n ≤ 1 then 0 else log2fuel fuel (n / 2) + 1

theorem log2fuel_le (fuel : ℕ) :
    ∀ n : ℕ, 1 ≤ n → n ≤ fuel → 2 ^ log2fuel fuel n ≤ n := by
  induction fuel with
  | zero =>
    intro n h1 h2
    omega
  | succ fuel ih =>
    intro n h1 h2
    simp only [log2fuel]
    split
    · omega
    · rename_i h
      have hrec := ih (n / 2) (by omega) (by omega)
      calc 2 ^ (log2fuel fuel (n / 2) + 1)
          = 2 ^ log2fuel fuel (n / 2) * 2 := by rw [pow_succ]
        _ ≤ n / 2 * 2 := by omega
        _ ≤ n := by omega

/-- Binade search below one: the least `m ≥ 1` with `x * 2 ^ m ≥ 1`, found
with structural fuel (1100 steps cover the whole IEEE binary64 range). -/
def invExpFuel : ℕ → ℚ → ℕ
  | 0, _ => 0
  | fuel + 1, x => if 1 ≤ x * 2 then 1 else invExpFuel fuel (x * 2) + 1

theorem invExpFuel_one (fuel : ℕ) (x : ℚ) (h : 1 ≤ x * 2) :
    invExpFuel (fuel + 1) x = 1 := by
  simp only [invExpFuel]
  rw [if_pos h]

/-- The binade exponent of a positive rational `x`: the unique `e` with
`2 ^ e ≤ x < 2 ^ (e + 1)` (for inputs in the IEEE binary64 normal range). -/
def ratExp (x : ℚ) : ℤ :=
  if 1 ≤ x then (log2fuel ⌊x⌋.toNat ⌊x⌋.toNat : ℤ)
  else -(invExpFuel 1100 x : ℤ)

theorem ratExp_le (x : ℚ) (hx : 1 ≤ x) : (2 : ℚ) ^ ratExp x ≤ x := by
  unfold ratExp
  rw [if_pos hx]
  have hfl : 1 ≤ ⌊x⌋ := Int.le_floor.mpr (by exact_mod_cast hx)
  have hn : 1 ≤ ⌊x⌋.toNat := by omega
  have hb := log2fuel_le ⌊x⌋.toNat ⌊x⌋.toNat hn le_rfl
  have hcast : ((2 ^ log2fuel ⌊x⌋.toNat ⌊x⌋.toNat : ℕ) : ℚ) ≤ (⌊x⌋.toNat : ℚ) := by
    exact_mod_cast hb
  have hq : ((⌊x⌋.toNat : ℤ) : ℚ) ≤ x := by
    rw [Int.toNat_of_nonneg (by omega)]
    exact Int.floor_le x
  rw [zpow_natCast]
  push_cast at hcast hq ⊢
  linarith

/-- Round a scaled significand to the nearest integer, ties to even: the
rounding step of IEEE binary64 arithmetic. -/
def roundTiesEven (y : ℚ) : ℤ :=
  if y - ⌊y⌋ < 1 / 2 then ⌊y⌋
  else if (1 : ℚ) / 2 < y - ⌊y⌋ then ⌊y⌋ + 1
  else if ⌊y⌋ % 2 = 0 then ⌊y⌋ else ⌊y⌋ + 1

theorem roundTiesEven_dist (y : ℚ) : |(roundTiesEven y : ℚ) - y| ≤ 1 / 2 := by
  have h1 : (⌊y⌋ : ℚ) ≤ y := Int.floor_le y
  have h2 : y < ⌊y⌋ + 1 := Int.lt_floor_add_one y
  unfold roundTiesEven
  split_ifs with ha hb hc
  · rw [abs_le]
    constructor <;> linarith
  · rw [abs_le]
    push_cast
    constructor <;> linarith
  · rw [abs_le]
    constructor <;> linarith
  · rw [abs_le]
    push_cast
    constructor <;> linarith

/-- Round a positive rational to the nearest IEEE binary64 value (round to
nearest, ties to even), for inputs in the normal range: scale by the
binade spacing `2 ^ (e - 52)`, round the 53-bit significand to the nearest
integer with ties to even, and scale back.  Nonpositive inputs map to 0.
This models the result of a Python float multiplication exactly. -/
def roundDouble (x : ℚ) : ℚ :=
  if x ≤ 0 then 0
  else (roundTiesEven (x / 2 ^ (ratExp x - 52)) : ℚ) * 2 ^ (ratExp x - 52)

theorem roundDouble_dist (x : ℚ) (hx : 1 ≤ x) :
    |roundDouble x - x| ≤ x / 2 ^ 53 := by
  have hx0 : 0 < x := by linarith
  have h2e : (2 : ℚ) ^ ratExp x ≤ x := ratExp_le x hx
  unfold roundDouble
  rw [if_neg (not_le.mpr hx0)]
  set s : ℚ := 2 ^ (ratExp x - 52) with hs
  have hspos : (0 : ℚ) < s := by
    rw [hs]
    positivity
  have hdist := roundTiesEven_dist (x / s)
  have hfact : (roundTiesEven (x / s) : ℚ) * s - x
      = ((roundTiesEven (x / s) : ℚ) - x / s) * s := by
    field_simp
  rw [hfact, abs_mul, abs_of_pos hspos]
  have hle : |(roundTiesEven (x / s) : ℚ) - x / s| * s ≤ (1 / 2) * s :=
    mul_le_mul_of_nonneg_right hdist (le_of_lt hspos)
  refine le_trans hle ?_
  have hs2 : (1 / 2 : ℚ) * s = 2 ^ (ratExp x - 53) := by
    rw [hs]
    have he : (ratExp x - 52 : ℤ) = (ratExp x - 53) + 1 := by ring
    rw [he, zpow_add₀ (by norm_num : (2 : ℚ) ≠ 0)]
    ring
  rw [hs2]
  calc (2 : ℚ) ^ (ratExp x - 53)
      = 2 ^ ratExp x / 2 ^ (53 : ℤ) := zpow_sub₀ (by norm_num) _ _
    _ ≤ x / 2 ^ (53 : ℤ) := by
        exact (div_le_div_iff_of_pos_right (by positivity)).mpr h2e
    _ = x / 2 ^ (53 : ℕ) := by norm_num

theorem roundDouble_nonneg (x : ℚ) (hx : 1 ≤ x) : 0 ≤ roundDouble x := by
  have hd := roundDouble_dist x hx
  rw [abs_le] at hd
  have hds : x / 2 ^ 53 ≤ x := div_le_self (by linarith) (by norm_num)
  linarith [hd.1]

theorem toNat_floor_le (x : ℚ) (hx : 0 ≤ x) : ((⌊x⌋.toNat : ℕ) : ℚ) ≤ x := by
  have h0 : 0 ≤ ⌊x⌋ := Int.floor_nonneg.mpr hx
  have h : ((⌊x⌋.toNat : ℤ) : ℚ) ≤ x := by
    rw [Int.toNat_of_nonneg h0]
    exact Int.floor_le x
  exact_mod_cast h

/-- The IEEE binary64 value of the Python literal `0.7`. -/
def c07 : ℚ := 3152519739159347 / 2 ^ 52

/-- The IEEE binary64 value of the Python literal `0.3`. -/
def c03 : ℚ := 5404319552844595 / 2 ^ 54

/-- The Python expression `int(max_chars * 0.7)` (src/app.py line 342):
the float product of the exactly-representable integer with the double
nearest 0.7, truncated to an integer. -/
def headLen (b : ℕ) : ℕ := (⌊roundDouble ((b : ℚ) * c07)⌋).toNat

/-- The Python expression `int(max_chars * 0.3)` (src/app.py line 343). -/
def tailLen (b : ℕ) : ℕ := (⌊roundDouble ((b : ℚ) * c03)⌋).toNat

/-- The elision marker inserted between head and tail of a clipped text. -/
def markerElision : List Char := "\n\n...(中略)...\n\n".data

/-- The Python slice `text[-t:]`: for `t = 0` this is the whole string
(since `-0 == 0`), otherwise the last `min t (length text)` characters. -/
def pyTailSlice (t : ℕ) (l : List Char) : List Char :=
  if t = 0 then l else l.drop (l.length - t)

/-- Model of the clipping step shared by `build_summary_prompt`
(src/app.py lines 338-344) and `build_prompt`
(src/url_to_summary_lmstudio.py lines 56-62): a text within budget passes
unchanged, a longer text becomes head plus elision marker plus tail with
the float-computed head and tail lengths. -/
def clipText (text : List Char) (maxChars : ℕ) : List Char :=
  if text.length ≤ maxChars then text
  else
    text.take (headLen maxChars) ++ markerElision ++
      pyTailSlice (tailLen maxChars) text

/-- Concrete IEEE evaluation: Python computes `int(3 * 0.7) == 2` (the
float product is 2.0999999999999996). -/
theorem headLen_three : headLen 3 = 2 := by
  have hx : ((3 : ℕ) : ℚ) * c07 = 9457559217478041 / 4503599627370496 := by
    norm_num [c07]
  unfold headLen
  rw [hx]
  have hfl : (⌊(9457559217478041 / 4503599627370496 : ℚ)⌋ : ℤ) = 2 := by
    rw [Int.floor_eq_iff]
    norm_num
  have hexp : ratExp (9457559217478041 / 4503599627370496 : ℚ) = 1 := by
    unfold ratExp
    rw [if_pos (by norm_num), hfl]
    rfl
  unfold roundDouble
  rw [if_neg (by norm_num), hexp]
  have h151 : ((1 : ℤ) - 52) = -51 := by norm_num
  rw [h151]
  have hzp : (2 : ℚ) ^ (-51 : ℤ) = 1 / 2251799813685248 := by norm_num
  rw [hzp]
  have hy : (9457559217478041 / 4503599627370496 : ℚ) / (1 / 2251799813685248)
      = 9457559217478041 / 2 := by norm_num
  rw [hy]
  have hfl2 : (⌊(9457559217478041 / 2 : ℚ)⌋ : ℤ) = 4728779608739020 := by
    rw [Int.floor_eq_iff]
    norm_num
  have hrte : roundTiesEven (9457559217478041 / 2 : ℚ) = 4728779608739020 := by
    unfold roundTiesEven
    rw [hfl2]
    norm_num
  rw [hrte]
  have hfl3 : (⌊((4728779608739020 : ℤ) : ℚ) * (1 / 2251799813685248)⌋ : ℤ) = 2 := by
    rw [Int.floor_eq_iff]
    norm_num
  rw [hfl3]
  rfl

/-- Concrete IEEE evaluation: Python computes `int(3 * 0.3) == 0` (the
float product is 0.8999999999999999), so the tail slice `text[-0:]` is the
whole text. -/
theorem tailLen_three : tailLen 3 = 0 := by
  have hx : ((3 : ℕ) : ℚ) * c03 = 16212958658533785 / 18014398509481984 := by
    norm_num [c03]
  unfold tailLen
  rw [hx]
  have hie : invExpFuel 1100 (16212958658533785 / 18014398509481984 : ℚ) = 1 :=
    invExpFuel_one 1099 _ (by norm_num)
  have hexp : ratExp (16212958658533785 / 18014398509481984 : ℚ) = -1 := by
    unfold ratExp
    rw [if_neg (by norm_num), hie]
    rfl
  unfold roundDouble
  rw [if_neg (by norm_num), hexp]
  have h153 : ((-1 : ℤ) - 52) = -53 := by norm_num
  rw [h153]
  have hzp : (2 : ℚ) ^ (-53 : ℤ) = 1 / 9007199254740992 := by norm_num
  rw [hzp]
  have hy : (16212958658533785 / 18014398509481984 : ℚ) / (1 / 9007199254740992)
      = 16212958658533785 / 2 := by norm_num
  rw [hy]
  have hfl2 : (⌊(16212958658533785 / 2 : ℚ)⌋ : ℤ) = 8106479329266892 := by
    rw [Int.floor_eq_iff]
    norm_num
  have hrte : roundTiesEven (16212958658533785 / 2 : ℚ) = 8106479329266892 := by
    unfold roundTiesEven
    rw [hfl2]
    norm_num
  rw [hrte]
  have hfl3 : (⌊((8106479329266892 : ℤ) : ℚ) * (1 / 9007199254740992)⌋ : ℤ) = 0 := by
    rw [Int.floor_eq_iff]
    norm_num
  rw [hfl3]
  rfl

/-- C9 counterexample: at budget 3 the computed tail length is 0, the
Python slice `text[-0:]` returns the whole text, and the clipped output is
far longer than budget + marker: 26 characters against the claimed bound
17. -/
theorem clipText_budget_cex :
    3 < ("aaaaaaaaaa".data).length ∧
    ¬ ((clipText "aaaaaaaaaa".data 3).length ≤ 3 + markerElision.length) := by
  constructor
  · decide
  · unfold clipText
    rw [if_neg (by decide), headLen_three, tailLen_three]
    decide

theorem tailLen_pos (b : ℕ) (hb4 : 4 ≤ b) : 1 ≤ tailLen b := by
  have hb4q : (4 : ℚ) ≤ (b : ℚ) := by exact_mod_cast hb4
  have hc03 : (0 : ℚ) ≤ c03 := by norm_num [c03]
  have hx03 : (1 : ℚ) ≤ (b : ℚ) * c03 := by
    have h2 : (4 : ℚ) * c03 ≤ (b : ℚ) * c03 :=
      mul_le_mul_of_nonneg_right hb4q hc03
    have h1 : (1 : ℚ) ≤ 4 * c03 := by norm_num [c03]
    linarith
  have hd := roundDouble_dist ((b : ℚ) * c03) hx03
  rw [abs_le] at hd
  have hrd : (1 : ℚ) ≤ roundDouble ((b : ℚ) * c03) := by
    have hkey : (1 : ℚ) ≤ (b : ℚ) * c03 - ((b : ℚ) * c03) / 2 ^ 53 := by
      rw [c03]
      norm_num
      linarith
    linarith [hd.1]
  unfold tailLen
  have hfl : 1 ≤ ⌊roundDouble ((b : ℚ) * c03)⌋ :=
    Int.le_floor.mpr (by exact_mod_cast hrd)
  omega

theorem headLen_add_tailLen_le (b : ℕ) (hb4 : 4 ≤ b) (hb53 : (b : ℚ) ≤ 2 ^ 53) :
    headLen b + tailLen b ≤ b := by
  have hb4q : (4 : ℚ) ≤ (b : ℚ) := by exact_mod_cast hb4
  have hx07 : (1 : ℚ) ≤ (b : ℚ) * c07 := by
    have h2 : (4 : ℚ) * c07 ≤ (b : ℚ) * c07 :=
      mul_le_mul_of_nonneg_right hb4q (by norm_num [c07])
    have h1 : (1 : ℚ) ≤ 4 * c07 := by norm_num [c07]
    linarith
  have hx03 : (1 : ℚ) ≤ (b : ℚ) * c03 := by
    have h2 : (4 : ℚ) * c03 ≤ (b : ℚ) * c03 :=
      mul_le_mul_of_nonneg_right hb4q (by norm_num [c03])
    have h1 : (1 : ℚ) ≤ 4 * c03 := by norm_num [c03]
    linarith
  have h07 := roundDouble_dist ((b : ℚ) * c07) hx07
  have h03 := roundDouble_dist ((b : ℚ) * c03) hx03
  rw [abs_le] at h07 h03
  have hH : ((headLen b : ℕ) : ℚ) ≤ roundDouble ((b : ℚ) * c07) :=
    toNat_floor_le _ (roundDouble_nonneg _ hx07)
  have hT : ((tailLen b : ℕ) : ℚ) ≤ roundDouble ((b : ℚ) * c03) :=
    toNat_floor_le _ (roundDouble_nonneg _ hx03)
  have hlt : ((headLen b : ℕ) : ℚ) + ((tailLen b : ℕ) : ℚ) < (b : ℚ) + 1 := by
    have k07 := h07.2
    have k03 := h03.2
    rw [c07] at k07 hH
    rw [c03] at k03 hT
    norm_num at k07 k03 hH hT ⊢
    linarith
  have hnat : headLen b + tailLen b < b + 1 := by exact_mod_cast hlt
  omega

/-- C9 (amended): for budgets b with 4 ≤ b ≤ 2^53 and a text longer than
b, the clipped output is take (headLen b) text ++ marker ++ (last
tailLen b characters), its length is at most b + length of the marker, its
first headLen b characters equal the first headLen b characters of the
original, and its last tailLen b characters equal the last tailLen b
characters of the original, where headLen b = int(b * 0.7) and
tailLen b = int(b * 0.3) are the head and tail sizes the code computes in
IEEE binary64 floating point (they differ from the exact floors of 0.7*b
and 0.3*b for some budgets, e.g. b = 90). -/
theorem clipText_spec (text : List Char) (b : ℕ)
    (hb4 : 4 ≤ b) (hb53 : (b : ℚ) ≤ 2 ^ 53) (hlong : b < text.length) :
    (clipText text b).length ≤ b + markerElision.length ∧
    (clipText text b).take (headLen b) = text.take (headLen b) ∧
    (clipText text b).drop ((clipText text b).length - tailLen b) =
      text.drop (text.length - tailLen b) := by
  have hsum := headLen_add_tailLen_le b hb4 hb53
  have ht1 := tailLen_pos b hb4
  have hh_le : headLen b ≤ b := by omega
  have ht_le : tailLen b ≤ b := by omega
  have hhlen : (text.take (headLen b)).length = headLen b := by
    rw [List.length_take]
    omega
  have htail : pyTailSlice (tailLen b) text = text.drop (text.length - tailLen b) := by
    unfold pyTailSlice
    rw [if_neg (by omega)]
  have htlen : (pyTailSlice (tailLen b) text).length = tailLen b := by
    rw [htail, List.length_drop]
    omega
  have hclip : clipText text b =
      text.take (headLen b) ++ markerElision ++ pyTailSlice (tailLen b) text := by
    unfold clipText
    rw [if_neg (by omega)]
  refine ⟨?_, ?_, ?_⟩
  · rw [hclip]
    simp only [List.length_append]
    omega
  · rw [hclip, List.take_append_eq_append_take, List.take_append_eq_append_take,
      hhlen, List.take_take]
    simp
    left
    have hmin : headLen b ⊓ text.length = headLen b := inf_eq_left.mpr (by omega)
    rw [hmin]
    omega
  · rw [hclip, htail]
    have hlen2 : (text.take (headLen b) ++ markerElision ++
        text.drop (text.length - tailLen b)).length - tailLen b
        = (text.take (headLen b) ++ markerElision).length := by
      simp only [List.length_append, hhlen]
      rw [List.length_drop]
      omega
    rw [hlen2, List.drop_left]

theorem clipText_spec_witness :
    4 ≤ 5 ∧ ((5 : ℕ) : ℚ) ≤ 2 ^ 53 ∧ 5 < (List.replicate 6 'a').length ∧
    ((clipText (List.replicate 6 'a') 5).length ≤ 5 + markerElision.length ∧
      (clipText (List.replicate 6 'a') 5).take (headLen 5) =
        (List.replicate 6 'a').take (headLen 5) ∧
      (clipText (List.replicate 6 'a') 5).drop
          ((clipText (List.replicate 6 'a') 5).length - tailLen 5) =
        (List.replicate 6 'a').drop ((List.replicate 6 'a').length - tailLen 5)) :=
  ⟨by decide, by norm_num, by decide,
    clipText_spec (List.replicate 6 'a') 5 (by decide) (by norm_num) (by decide)⟩

/-- Audio byte buffers (Python `bytes`), modelled as lists of naturals. -/
abbrev ByteSeq := List ℕ

/-- The parsed body of one poll of the status endpoint
(`{ isAudioReady, isAudioError }`, src/app.py lines 229-236). -/
structure PollStatus where
  isAudioReady : Bool
  isAudioError : Bool
deriving DecidableEq

/-- The distinct failure messages `synthesize_voice` can produce, one
constructor per formatted string in src/app.py lines 215-241. -/
inductive ClientError where
  | apiFailure : ClientError
  | audioError (st : PollStatus) : ClientError
  | pollTimeout (lastStatus : PollStatus) : ClientError
  | missingUrls : ClientError
  | exceptionRaised : ClientError
deriving DecidableEq

/-- The shapes a response of the synthesis endpoint can take, as
distinguished by `synthesize_voice` (src/app.py lines 207-239): a raised
transport exception, `success == false`, an inline `mp3Base64` payload
(already decoded here), a deferred response carrying a status oracle (the
parsed body of the k-th status poll) and the download bytes, or a response
missing one of the deferred references. -/
inductive ApiResponse where
  | transportError : ApiResponse
  | failure : ApiResponse
  | inline (mp3 : ByteSeq) : ApiResponse
  | deferred (statusAt : ℕ → PollStatus) (dl : ByteSeq) : ApiResponse
  | malformed : ApiResponse

/-- The polling loop `for i in range(20)` of `synthesize_voice`
(src/app.py lines 228-238), counting how many status polls are issued.
`r` is the number of remaining iterations, `idx` the next poll index;
exhaustion reports a timeout carrying the last polled status. -/
def pollLoop (statusAt : ℕ → PollStatus) (dl : ByteSeq) :
    ℕ → ℕ → (Option ByteSeq × Option ClientError) × ℕ
  | 0, idx => ((none, some (.pollTimeout (statusAt (idx - 1)))), 0)
  | r + 1, idx =>
    let st := statusAt idx
    if st.isAudioReady then ((some dl, none), 1)
    else if st.isAudioError then ((none, some (.audioError st)), 1)
    else
      let (res, c) := pollLoop statusAt dl r (idx + 1)
      (res, c + 1)

/-- Model of `synthesize_voice(text, speaker_id, api_key, timeout)`
(src/app.py lines 201-241), as a function of the parsed server response;
the returned pair mirrors the Python `(mp3 data, error message)` tuple and
the second component counts the status polls issued. -/
def synthesize_voice : ApiResponse → (Option ByteSeq × Option ClientError) × ℕ
  | .transportError => ((none, some .exceptionRaised), 0)
  | .failure => ((none, some .apiFailure), 0)
  | .inline mp3 => ((some mp3, none), 0)
  | .deferred statusAt dl => pollLoop statusAt dl 20 0
  | .malformed => ((none, some .missingUrls), 0)

/-- Python truthiness of the `audio_data` variable: `None` and the empty
bytes object are falsy (`if audio_data:` / `if not audio_data:`). -/
def pyTruthyBytes : Option ByteSeq → Bool
  | none => false
  | some b => !b.isEmpty

/-- The per-chunk retry loop `for attempt in range(max_retries + 1)` of
`synthesize_voice_full` (src/app.py lines 257-265): `synthA a` is the
result of the synthesis attempt number `a` for this chunk, `a` the next
attempt index, `r` the remaining attempts and `le` the accumulated
`last_error`.  Returns the final `(audio_data, last_error)` pair and the
number of attempts made. -/
def retryChunk (synthA : ℕ → Option ByteSeq × Option ClientError) :
    ℕ → ℕ → Option ClientError → (Option ByteSeq × Option ClientError) × ℕ
  | _, 0, le => ((none, le), 0)
  | a, r + 1, le =>
    let res := synthA a
    if pyTruthyBytes res.1 then ((res.1, le), 1)
    else if r = 0 then ((res.1, res.2), 1)
    else
      let (p, c) := retryChunk synthA (a + 1) r res.2
      (p, c + 1)

/-- The failure messages `synthesize_voice_full` can produce, one
constructor per formatted string in src/app.py lines 244-275.
`chunkFailed ordinal total attempts lastErr` renders
`"Chunk {i+1}/{len(chunks)} failed after {max_retries+1} attempts:
{last_error}"`. -/
inductive FullError where
  | noText : FullError
  | noAudio : FullError
  | chunkFailed (ordinal total attempts : ℕ) (lastErr : Option ClientError) :
      FullError
deriving DecidableEq

/-- The chunk loop `for i, chunk in enumerate(chunks)` of
`synthesize_voice_full` (src/app.py lines 251-272): processes the
remaining chunks starting at index `i` with accumulated `audio_parts`,
returning the Python result pair together with the log of synthesis calls
made, as (chunk index, attempt index) pairs in call order.  `synth i a` is
the outcome of attempt `a` of chunk `i` (the network oracle). -/
def processChunks (synth : ℕ → ℕ → Option ByteSeq × Option ClientError)
    (maxRetries n : ℕ) :
    ℕ → List (List Char) → List ByteSeq →
      (Option ByteSeq × Option FullError) × List (ℕ × ℕ)
  | _, [], acc =>
    if acc.isEmpty then ((none, some .noAudio), [])
    else ((some acc.flatten, none), [])
  | i, _chunk :: rest, acc =>
    let r := retryChunk (synth i) 0 (maxRetries + 1) none
    let calls := (List.range r.2).map (fun a => (i, a))
    match r.1.1 with
    | some b =>
      if b.isEmpty then
        ((none, some (.chunkFailed (i + 1) n (maxRetries + 1) r.1.2)), calls)
      else
        let rec2 := processChunks synth maxRetries n (i + 1) rest (acc ++ [b])
        (rec2.1, calls ++ rec2.2)
    | none =>
      ((none, some (.chunkFailed (i + 1) n (maxRetries + 1) r.1.2)), calls)

/-- Model of `synthesize_voice_full(text, speaker_id, api_key, timeout,
max_retries)` (src/app.py lines 244-275).  The speaker id, credential and
timeout only parameterise the network calls, which the oracle `synth`
abstracts: `synth i a` is the `(mp3 data, error)` pair returned by the
`synthesize_voice` call for chunk `i`, attempt `a`.  The result is the
Python `(mp3 data, error)` pair plus the ordered log of synthesis calls
made. -/
def synthesize_voice_full (synth : ℕ → ℕ → Option ByteSeq × Option ClientError)
    (text : List Char) (maxRetries : ℕ) :
    (Option ByteSeq × Option FullError) × List (ℕ × ℕ) :=
  let chunks := split_text_for_tts text 200
  if chunks.isEmpty then ((none, some .noText), [])
  else processChunks synth maxRetries chunks.length 0 chunks []

/-- A poll body reporting neither completion nor failure. -/
def statusPending (st : PollStatus) : Prop :=
  st.isAudioReady = false ∧ st.isAudioError = false

theorem pollLoop_count_le (statusAt : ℕ → PollStatus) (dl : ByteSeq) :
    ∀ r idx, (pollLoop statusAt dl r idx).2 ≤ r := by
  intro r
  induction r with
  | zero =>
    intro idx
    simp [pollLoop]
  | succ r ih =>
    intro idx
    simp only [pollLoop]
    split_ifs
    · simp
    · simp
    · simpa using ih (idx + 1)

theorem pollLoop_ready (statusAt : ℕ → PollStatus) (dl : ByteSeq) :
    ∀ m r idx, m < r →
      (∀ j < m, statusPending (statusAt (idx + j))) →
      (statusAt (idx + m)).isAudioReady = true →
      pollLoop statusAt dl r idx = ((some dl, none), m + 1) := by
  intro m
  induction m with
  | zero =>
    intro r idx hr _ hready
    obtain ⟨r', rfl⟩ : ∃ r', r = r' + 1 := ⟨r - 1, by omega⟩
    simp only [pollLoop]
    rw [if_pos (by simpa using hready)]
  | succ m ih =>
    intro r idx hr hprev hready
    obtain ⟨r', rfl⟩ : ∃ r', r = r' + 1 := ⟨r - 1, by omega⟩
    have h0 := hprev 0 (by omega)
    rw [Nat.add_zero] at h0
    simp only [pollLoop]
    rw [if_neg (by simp [h0.1]), if_neg (by simp [h0.2])]
    have hrec := ih r' (idx + 1) (by omega)
      (fun j hj => by
        have hh := hprev (j + 1) (by omega)
        have heq : idx + (j + 1) = idx + 1 + j := by omega
        rw [heq] at hh
        exact hh)
      (by
        have heq : idx + (m + 1) = idx + 1 + m := by omega
        rw [heq] at hready
        exact hready)
    rw [hrec]

theorem pollLoop_error (statusAt : ℕ → PollStatus) (dl : ByteSeq) :
    ∀ m r idx, m < r →
      (∀ j < m, statusPending (statusAt (idx + j))) →
      (statusAt (idx + m)).isAudioReady = false →
      (statusAt (idx + m)).isAudioError = true →
      pollLoop statusAt dl r idx =
        ((none, some (.audioError (statusAt (idx + m)))), m + 1) := by
  intro m
  induction m with
  | zero =>
    intro r idx hr _ hready herr
    obtain ⟨r', rfl⟩ : ∃ r', r = r' + 1 := ⟨r - 1, by omega⟩
    rw [Nat.add_zero] at hready herr
    simp only [pollLoop]
    rw [if_neg (by simp [hready]), if_pos (by simpa using herr)]
    rw [Nat.add_zero]
  | succ m ih =>
    intro r idx hr hprev hready herr
    obtain ⟨r', rfl⟩ : ∃ r', r = r' + 1 := ⟨r - 1, by omega⟩
    have h0 := hprev 0 (by omega)
    rw [Nat.add_zero] at h0
    simp only [pollLoop]
    rw [if_neg (by simp [h0.1]), if_neg (by simp [h0.2])]
    have heq : idx + (m + 1) = idx + 1 + m := by omega
    rw [heq] at hready herr ⊢
    have hrec := ih r' (idx + 1) (by omega)
      (fun j hj => by
        have hh := hprev (j + 1) (by omega)
        have heq2 : idx + (j + 1) = idx + 1 + j := by omega
        rw [heq2] at hh
        exact hh)
      hready herr
    rw [hrec]

theorem pollLoop_timeout (statusAt : ℕ → PollStatus) (dl : ByteSeq) :
    ∀ r idx, (∀ j < r, statusPending (statusAt (idx + j))) →
      pollLoop statusAt dl r idx =
        ((none, some (.pollTimeout (statusAt (idx + r - 1)))), r) := by
  intro r
  induction r with
  | zero =>
    intro idx _
    simp [pollLoop]
  | succ r ih =>
    intro idx h
    have h0 := h 0 (by omega)
    rw [Nat.add_zero] at h0
    simp only [pollLoop]
    rw [if_neg (by simp [h0.1]), if_neg (by simp [h0.2])]
    have hrec := ih (idx + 1)
      (fun j hj => by
        have hh := h (j + 1) (by omega)
        have heq : idx + (j + 1) = idx + 1 + j := by omega
        rw [heq] at hh
        exact hh)
    rw [hrec]
    have heq : idx + 1 + r - 1 = idx + (r + 1) - 1 := by omega
    rw [heq]

theorem retryChunk_count_pos (synthA : ℕ → Option ByteSeq × Option ClientError) :
    ∀ r a le, 1 ≤ r → 1 ≤ (retryChunk synthA a r le).2 := by
  intro r
  induction r with
  | zero =>
    intro a le h
    omega
  | succ r ih =>
    intro a le _
    simp only [retryChunk]
    split_ifs
    · simp
    · simp
    · simpa using Nat.le_add_left 1 _

theorem retryChunk_all_fail (synthA : ℕ → Option ByteSeq × Option ClientError) :
    ∀ r a le, 1 ≤ r →
      (∀ t < r, pyTruthyBytes (synthA (a + t)).1 = false) →
      retryChunk synthA a r le =
        (((synthA (a + r - 1)).1, (synthA (a + r - 1)).2), r) := by
  intro r
  induction r with
  | zero =>
    intro a le h
    omega
  | succ r ih =>
    intro a le _ hfail
    have h0 := hfail 0 (by omega)
    rw [Nat.add_zero] at h0
    simp only [retryChunk]
    rw [if_neg (by simp [h0])]
    by_cases hr : r = 0
    · subst hr
      rw [if_pos rfl]
      simp
    · rw [if_neg hr]
      have hrec := ih (a + 1) (synthA a).2 (by omega)
        (fun t ht => by
          have hh := hfail (t + 1) (by omega)
          have heq : a + (t + 1) = a + 1 + t := by omega
          rw [heq] at hh
          exact hh)
      rw [hrec]
      have heq : a + 1 + r - 1 = a + (r + 1) - 1 := by omega
      rw [heq]

theorem retryChunk_first_success (synthA : ℕ → Option ByteSeq × Option ClientError) :
    ∀ s r a le, s < r →
      (∀ t < s, pyTruthyBytes (synthA (a + t)).1 = false) →
      pyTruthyBytes (synthA (a + s)).1 = true →
      ∃ e, retryChunk synthA a r le = (((synthA (a + s)).1, e), s + 1) := by
  intro s
  induction s with
  | zero =>
    intro r a le hr _ hsucc
    obtain ⟨r', rfl⟩ : ∃ r', r = r' + 1 := ⟨r - 1, by omega⟩
    rw [Nat.add_zero] at hsucc
    refine ⟨le, ?_⟩
    simp only [retryChunk]
    rw [if_pos (by simpa using hsucc)]
    simp
  | succ s ih =>
    intro r a le hr hprev hsucc
    obtain ⟨r', rfl⟩ : ∃ r', r = r' + 1 := ⟨r - 1, by omega⟩
    have h0 := hprev 0 (by omega)
    rw [Nat.add_zero] at h0
    have hr0 : r' ≠ 0 := by omega
    have heq : a + (s + 1) = a + 1 + s := by omega
    rw [heq] at hsucc ⊢
    obtain ⟨e, he⟩ := ih r' (a + 1) (synthA a).2 (by omega)
      (fun t ht => by
        have hh := hprev (t + 1) (by omega)
        have heq2 : a + (t + 1) = a + 1 + t := by omega
        rw [heq2] at hh
        exact hh)
      hsucc
    refine ⟨e, ?_⟩
    simp only [retryChunk]
    rw [if_neg (by simp [h0]), if_neg hr0, he]

/-- Abort behaviour of the chunk loop: if chunk `j` fails every attempt
while every earlier chunk has a successful attempt within the budget, the
loop returns the chunk-`j` failure, the log ends with the full retry
budget spent on chunk `j`, and no call touches any later chunk. -/
theorem processChunks_first_fail (synth : ℕ → ℕ → Option ByteSeq × Option ClientError)
    (maxRetries n j : ℕ)
    (hfail : ∀ a < maxRetries + 1, pyTruthyBytes (synth j a).1 = false)
    (hprev : ∀ i' < j, ∃ a < maxRetries + 1, pyTruthyBytes (synth i' a).1 = true) :
    ∀ cs : List (List Char), ∀ i acc, i ≤ j → j < i + cs.length →
      ∃ pre,
        processChunks synth maxRetries n i cs acc =
          ((none, some (.chunkFailed (j + 1) n (maxRetries + 1) (synth j maxRetries).2)),
            pre ++ (List.range (maxRetries + 1)).map (fun a => (j, a))) ∧
        ∀ p ∈ pre, p.1 < j := by
  intro cs
  induction cs with
  | nil =>
    intro i acc h1 h2
    simp at h2
    omega
  | cons c rest ih =>
    intro i acc hij hjlt
    by_cases hii : i = j
    · subst hii
      have hr := retryChunk_all_fail (synth i) (maxRetries + 1) 0 none (by omega)
        (fun t ht => by simpa using hfail t (by omega))
      have hidx : 0 + (maxRetries + 1) - 1 = maxRetries := by omega
      rw [hidx] at hr
      refine ⟨[], ?_, by simp⟩
      simp only [processChunks, hr]
      rcases hb : (synth i maxRetries).1 with _ | b
      · simp
      · have hf := hfail maxRetries (by omega)
        rw [hb] at hf
        have hbe : b.isEmpty = true := by
          simpa [pyTruthyBytes] using hf
        simp [hbe]
    · have hlt : i < j := by omega
      obtain ⟨a0, ha0, hta⟩ := hprev i hlt
      have hex : ∃ a, pyTruthyBytes (synth i a).1 = true := ⟨a0, hta⟩
      have hsP : pyTruthyBytes (synth i (Nat.find hex)).1 = true := Nat.find_spec hex
      have hsmin : ∀ t < Nat.find hex, pyTruthyBytes (synth i t).1 = false := by
        intro t ht
        have hm := Nat.find_min hex ht
        simpa using hm
      have hslt : Nat.find hex < maxRetries + 1 := by
        have hle : Nat.find hex ≤ a0 := Nat.find_min' hex hta
        omega
      obtain ⟨e, he⟩ := retryChunk_first_success (synth i) (Nat.find hex)
        (maxRetries + 1) 0 none hslt
        (fun t ht => by simpa using hsmin t ht) (by simpa using hsP)
      rw [Nat.zero_add] at he
      obtain ⟨b, hb⟩ : ∃ b, (synth i (Nat.find hex)).1 = some b := by
        rcases hx : (synth i (Nat.find hex)).1 with _ | b
        · rw [hx] at hsP
          simp [pyTruthyBytes] at hsP
        · exact ⟨b, rfl⟩
      have hbne : b.isEmpty = false := by
        have hp := hsP
        rw [hb] at hp
        simpa [pyTruthyBytes] using hp
      obtain ⟨pre, hrec, hpre⟩ := ih (i + 1) (acc ++ [b]) (by omega)
        (by
          simp only [List.length_cons] at hjlt
          omega)
      refine ⟨(List.range (Nat.find hex + 1)).map (fun a => (i, a)) ++ pre, ?_, ?_⟩
      · simp only [processChunks, he, hb]
        rw [if_neg (by simp [hbne])]
        rw [hrec]
        simp [List.append_assoc]
      · intro p hp
        rcases List.mem_append.mp hp with h | h
        · obtain ⟨t, _, rfl⟩ := List.mem_map.mp h
          simpa using hlt
        · exact hpre p h

/-- Success behaviour of the chunk loop: when every remaining chunk has a
first successful attempt within the budget, the loop returns the flattened
accumulated audio followed by the first-success audio of each chunk, in
chunk order, with no error. -/
theorem processChunks_success (synth : ℕ → ℕ → Option ByteSeq × Option ClientError)
    (maxRetries n : ℕ) (A : ℕ → ByteSeq) (k : ℕ → ℕ) :
    ∀ cs : List (List Char), ∀ i acc,
      (∀ t < cs.length, k (i + t) < maxRetries + 1 ∧
        (∀ u < k (i + t), pyTruthyBytes (synth (i + t) u).1 = false) ∧
        (synth (i + t) (k (i + t))).1 = some (A (i + t)) ∧ A (i + t) ≠ []) →
      acc ++ (List.range cs.length).map (fun t => A (i + t)) ≠ [] →
      (processChunks synth maxRetries n i cs acc).1 =
        (some (acc ++ (List.range cs.length).map (fun t => A (i + t))).flatten,
          none) := by
  intro cs
  induction cs with
  | nil =>
    intro i acc hfacts hne
    have hacc : acc ≠ [] := by simpa using hne
    simp only [processChunks]
    rw [if_neg (by simpa [List.isEmpty_iff] using hacc)]
    simp
  | cons c rest ih =>
    intro i acc hfacts hne
    obtain ⟨hk, hfirst, hsucc, hAne⟩ := hfacts 0 (by simp)
    rw [Nat.add_zero] at hk hfirst hsucc hAne
    have htruthy : pyTruthyBytes (synth i (k i)).1 = true := by
      rw [hsucc]
      simpa [pyTruthyBytes, List.isEmpty_iff] using hAne
    obtain ⟨e, he⟩ := retryChunk_first_success (synth i) (k i) (maxRetries + 1)
      0 none hk (fun t ht => by simpa using hfirst t ht) (by simpa using htruthy)
    rw [Nat.zero_add] at he
    have hbne : (A i).isEmpty = false := by simpa [List.isEmpty_iff] using hAne
    have hrec := ih (i + 1) (acc ++ [A i])
      (fun t ht => by
        have hh := hfacts (t + 1) (by simpa using Nat.succ_lt_succ ht)
        have heq : i + (t + 1) = i + 1 + t := by omega
        rw [heq] at hh
        exact hh)
      (by simp)
    have hlist : (acc ++ [A i]) ++ (List.range rest.length).map (fun t => A (i + 1 + t))
        = acc ++ (List.range (rest.length + 1)).map (fun t => A (i + t)) := by
      rw [← List.append_cons]
      congr 1
      rw [List.range_succ_eq_map, List.map_cons, Nat.add_zero, List.map_map]
      congr 1
      apply List.map_congr_left
      intro t _
      simp only [Function.comp_apply, Nat.succ_eq_add_one]
      rw [show i + 1 + t = i + (t + 1) from by omega]
    simp only [processChunks, he, hsucc]
    rw [if_neg (by simp [hbne])]
    rw [hrec, hlist]
    simp

/-- C1: if some chunk j fails every one of the maxRetries + 1 attempts
while every earlier chunk has a successful attempt within the budget,
`synthesize_voice_full` aborts: it returns no audio together with the
failure naming the 1-based ordinal j + 1, the total chunk count, the
attempt count and the last error observed for chunk j; the call log ends
with the budget spent on chunk j and contains no call for any chunk after
j, and the audio already produced for earlier chunks is discarded. -/
theorem synthesize_voice_full_aborts
    (synth : ℕ → ℕ → Option ByteSeq × Option ClientError)
    (text : List Char) (maxRetries j : ℕ)
    (hj : j < (split_text_for_tts text 200).length)
    (hfail : ∀ a ≤ maxRetries, pyTruthyBytes (synth j a).1 = false)
    (hprev : ∀ i < j, ∃ a ≤ maxRetries, pyTruthyBytes (synth i a).1 = true) :
    ∃ pre,
      synthesize_voice_full synth text maxRetries =
        ((none, some (.chunkFailed (j + 1) (split_text_for_tts text 200).length
            (maxRetries + 1) (synth j maxRetries).2)),
          pre ++ (List.range (maxRetries + 1)).map (fun a => (j, a))) ∧
      ∀ p ∈ pre, p.1 < j := by
  simp only [synthesize_voice_full]
  rw [if_neg (by
    simp only [List.isEmpty_iff]
    intro h
    rw [h] at hj
    simp at hj)]
  exact processChunks_first_fail synth maxRetries _ j
    (fun a ha => hfail a (by omega))
    (fun i hi => (hprev i hi).imp (fun a ha => ⟨by omega, ha.2⟩))
    (split_text_for_tts text 200) 0 [] (by omega) (by simpa using hj)

theorem synthesize_voice_full_aborts_witness :
    0 < (split_text_for_tts "ab".data 200).length ∧
    ∃ pre,
      synthesize_voice_full (fun _ _ => (none, some ClientError.apiFailure))
          "ab".data 1 =
        ((none, some (.chunkFailed 1 (split_text_for_tts "ab".data 200).length
            2 (some ClientError.apiFailure))),
          pre ++ (List.range 2).map (fun a => (0, a))) ∧
      ∀ p ∈ pre, p.1 < 0 :=
  ⟨by decide,
    synthesize_voice_full_aborts (fun _ _ => (none, some ClientError.apiFailure))
      "ab".data 1 0 (by decide) (by decide) (by decide)⟩

/-- C2: when every chunk has a successful attempt within the retry budget
(the first attempt returning non-empty audio is used for each chunk),
`synthesize_voice_full` returns exactly the byte-level concatenation of
the per-chunk audio buffers, in chunk order, with no error. -/
theorem synthesize_voice_full_concat
    (synth : ℕ → ℕ → Option ByteSeq × Option ClientError)
    (text : List Char) (maxRetries : ℕ) (A : ℕ → ByteSeq) (k : ℕ → ℕ)
    (hn : split_text_for_tts text 200 ≠ [])
    (hk : ∀ i < (split_text_for_tts text 200).length, k i ≤ maxRetries)
    (hfirst : ∀ i < (split_text_for_tts text 200).length,
      ∀ u < k i, pyTruthyBytes (synth i u).1 = false)
    (hsucc : ∀ i < (split_text_for_tts text 200).length,
      (synth i (k i)).1 = some (A i))
    (hAne : ∀ i < (split_text_for_tts text 200).length, A i ≠ []) :
    (synthesize_voice_full synth text maxRetries).1 =
      (some ((List.range (split_text_for_tts text 200).length).map A).flatten,
        none) := by
  simp only [synthesize_voice_full]
  rw [if_neg (by simpa [List.isEmpty_iff] using hn)]
  have h := processChunks_success synth maxRetries
    (split_text_for_tts text 200).length A k (split_text_for_tts text 200) 0 []
    (fun t ht => by
      simp only [Nat.zero_add]
      exact ⟨Nat.lt_succ_of_le (hk t ht), hfirst t ht, hsucc t ht, hAne t ht⟩)
    (by
      intro hcontra
      apply hn
      have hmap : (List.range (split_text_for_tts text 200).length).map
          (fun t => A (0 + t)) = [] := by
        simpa using hcontra
      have h0 : (split_text_for_tts text 200).length = 0 := by
        simpa using congrArg List.length hmap
      exact List.length_eq_zero.mp h0)
  rw [h]
  simp only [List.nil_append, Nat.zero_add]

theorem synthesize_voice_full_concat_witness :
    split_text_for_tts "hi".data 200 ≠ [] ∧
    (∀ i < (split_text_for_tts "hi".data 200).length, (0 : ℕ) ≤ 0) ∧
    (synthesize_voice_full (fun _ _ => (some [1, 2], none)) "hi".data 0).1 =
      (some ((List.range (split_text_for_tts "hi".data 200).length).map
        (fun _ => ([1, 2] : ByteSeq))).flatten, none) :=
  ⟨by decide, by decide,
    synthesize_voice_full_concat (fun _ _ => (some [1, 2], none)) "hi".data 0
      (fun _ => [1, 2]) (fun _ => 0)
      (by decide) (by decide) (by decide) (by decide) (by decide)⟩

/-- C6 counterexample: a poll whose body reports both `isAudioReady` and
`isAudioError` is treated as ready: the claim says a poll reporting an
error fails immediately, but the code checks `isAudioReady` first and
returns the downloaded bytes. -/
theorem synthesize_voice_poll_cex :
    ((fun _ : ℕ => PollStatus.mk true true) 0).isAudioError = true ∧
    synthesize_voice (.deferred (fun _ : ℕ => PollStatus.mk true true) [5]) =
      ((some [5], none), 1) := by
  refine ⟨rfl, ?_⟩
  have h := pollLoop_ready (fun _ : ℕ => PollStatus.mk true true) [5] 0 20 0
    (by omega) (fun j hj => absurd hj (Nat.not_lt_zero j)) rfl
  simp only [synthesize_voice]
  simpa using h

/-- C6 (amended): for a deferred response `synthesize_voice` polls the
status reference at most 20 times; if the first k - 1 polls are pending
and the k-th reports ready (1 ≤ k ≤ 20), it returns the download bytes
after exactly k polls; if the first k - 1 polls are pending and the k-th
reports an error and not ready, it fails immediately with the
service-error message after exactly k polls (when a poll reports both
ready and error, ready wins and the bytes are returned); if all 20 polls
are pending it fails with the timeout message, whose classification is
distinct from a service-reported error. -/
theorem synthesize_voice_poll_protocol (statusAt : ℕ → PollStatus)
    (dl : ByteSeq) (k : ℕ) :
    (1 ≤ k → k ≤ 20 →
      (∀ j, j + 1 < k → statusPending (statusAt j)) →
      ((statusAt (k - 1)).isAudioReady = true →
        synthesize_voice (.deferred statusAt dl) = ((some dl, none), k)) ∧
      ((statusAt (k - 1)).isAudioReady = false →
        (statusAt (k - 1)).isAudioError = true →
        synthesize_voice (.deferred statusAt dl) =
          ((none, some (.audioError (statusAt (k - 1)))), k))) ∧
    ((∀ j < 20, statusPending (statusAt j)) →
      synthesize_voice (.deferred statusAt dl) =
        ((none, some (.pollTimeout (statusAt 19))), 20)) ∧
    (synthesize_voice (.deferred statusAt dl)).2 ≤ 20 ∧
    (∀ st st' : PollStatus,
      ClientError.pollTimeout st ≠ ClientError.audioError st') := by
  refine ⟨?_, ?_, ?_, ?_⟩
  · intro hk1 hk20 hpend
    have hk : k - 1 + 1 = k := by omega
    constructor
    · intro hready
      show pollLoop statusAt dl 20 0 = ((some dl, none), k)
      have h := pollLoop_ready statusAt dl (k - 1) 20 0 (by omega)
        (fun j hj => by simpa using hpend j (by omega))
        (by simpa using hready)
      rw [h, hk]
    · intro hready herr
      show pollLoop statusAt dl 20 0 =
        ((none, some (.audioError (statusAt (k - 1)))), k)
      have h := pollLoop_error statusAt dl (k - 1) 20 0 (by omega)
        (fun j hj => by simpa using hpend j (by omega))
        (by simpa using hready) (by simpa using herr)
      rw [h, Nat.zero_add, hk]
  · intro hpend
    show pollLoop statusAt dl 20 0 = _
    have h := pollLoop_timeout statusAt dl 20 0
      (fun j hj => by simpa using hpend j hj)
    rw [h]
  · show (pollLoop statusAt dl 20 0).2 ≤ 20
    exact pollLoop_count_le statusAt dl 20 0
  · intro st st'
    simp

theorem synthesize_voice_poll_protocol_witness :
    (∀ j, j + 1 < 3 → statusPending
      ((fun j => if j < 2 then PollStatus.mk false false
        else PollStatus.mk true false) j)) ∧
    ((fun j => if j < 2 then PollStatus.mk false false
      else PollStatus.mk true false) 2).isAudioReady = true ∧
    synthesize_voice (.deferred
      (fun j => if j < 2 then PollStatus.mk false false
        else PollStatus.mk true false) [9]) = ((some [9], none), 3) :=
  ⟨by
    intro j hj
    have h2 : j = 0 ∨ j = 1 := by omega
    rcases h2 with rfl | rfl <;> exact ⟨rfl, rfl⟩,
   rfl,
   ((synthesize_voice_poll_protocol
      (fun j => if j < 2 then PollStatus.mk false false
        else PollStatus.mk true false) [9] 3).1 (by omega) (by omega)
      (by
        intro j hj
        have h2 : j = 0 ∨ j = 1 := by omega
        rcases h2 with rfl | rfl <;> exact ⟨rfl, rfl⟩)).1 rfl⟩

/-- C7 counterexample: for the empty input text the chunker returns one
empty chunk, not zero chunks, so `synthesize_voice_full` does not fail
with the empty-input error: it issues a synthesis call for the empty
chunk (call (0, 0) is logged) and, with a service that returns audio,
even returns that audio. -/
theorem synthesize_voice_full_empty_cex :
    synthesize_voice_full (fun _ _ => (some [3], none)) ([] : List Char) 0 =
      ((some [3], none), [(0, 0)]) := by decide

/-- C7 (amended): `synthesize_voice_full` fails immediately with the
empty-input error, making no synthesis call, exactly when the chunker
returns no chunks, which happens only for whitespace-only inputs longer
than 200 characters; the empty input text instead yields the single chunk
list [""], and a synthesis attempt (0, 0) is always issued for it. -/
theorem synthesize_voice_full_empty_input :
    (∀ (synth : ℕ → ℕ → Option ByteSeq × Option ClientError)
      (maxRetries : ℕ) (text : List Char),
      split_text_for_tts text 200 = [] →
      synthesize_voice_full synth text maxRetries = ((none, some .noText), [])) ∧
    split_text_for_tts [] 200 = [[]] ∧
    (∀ (synth : ℕ → ℕ → Option ByteSeq × Option ClientError) (maxRetries : ℕ),
      (0, 0) ∈ (synthesize_voice_full synth ([] : List Char) maxRetries).2) := by
  refine ⟨?_, by decide, ?_⟩
  · intro synth maxRetries text h
    simp only [synthesize_voice_full]
    rw [if_pos (by simp [h])]
  · intro synth maxRetries
    have hchunks : split_text_for_tts ([] : List Char) 200 = [[]] := by decide
    simp only [synthesize_voice_full, hchunks]
    rw [if_neg (by simp)]
    simp only [processChunks]
    have hcnt := retryChunk_count_pos (synth 0) (maxRetries + 1) 0 none (by omega)
    have hmem : ((0 : ℕ), (0 : ℕ)) ∈
        (List.range (retryChunk (synth 0) 0 (maxRetries + 1) none).2).map
          (fun a => ((0 : ℕ), a)) :=
      List.mem_map.mpr ⟨0, List.mem_range.mpr (by omega), rfl⟩
    rcases hb : (retryChunk (synth 0) 0 (maxRetries + 1) none).1.1 with _ | b
    · simp only [hb]
      exact hmem
    · simp only [hb]
      by_cases hbe : b.isEmpty = true

      · rw [if_pos hbe]
        exact hmem
      · rw [if_neg hbe]
        exact List.mem_append_left _ hmem

set_option maxRecDepth 40000 in
theorem synthesize_voice_full_empty_input_witness :
    split_text_for_tts (List.replicate 201 ' ') 200 = [] ∧
    synthesize_voice_full (fun _ _ => (none, none)) (List.replicate 201 ' ') 0 =
      ((none, some FullError.noText), []) :=
  ⟨by decide,
    synthesize_voice_full_empty_input.1 (fun _ _ => (none, none)) 0
      (List.replicate 201 ' ') (by decide)⟩

/-- C10: an attempt that returns an empty byte buffer with no error is a
failed attempt.  Part one: if every attempt for a chunk returns empty
bytes, the retry loop runs the full budget of maxRetries + 1 attempts and
ends with falsy audio and the last attempt error (possibly none).  Part
two: the whole call then fails citing that chunk with that last error,
with no call for any later chunk. -/
theorem synthesize_voice_full_empty_audio :
    (∀ (synthA : ℕ → Option ByteSeq × Option ClientError) (maxRetries : ℕ),
      (∀ a ≤ maxRetries, (synthA a).1 = some ([] : ByteSeq)) →
      retryChunk synthA 0 (maxRetries + 1) none =
        ((some [], (synthA maxRetries).2), maxRetries + 1)) ∧
    (∀ (synth : ℕ → ℕ → Option ByteSeq × Option ClientError)
      (text : List Char) (maxRetries j : ℕ),
      j < (split_text_for_tts text 200).length →
      (∀ a ≤ maxRetries, (synth j a).1 = some ([] : ByteSeq)) →
      (∀ i < j, ∃ a ≤ maxRetries, pyTruthyBytes (synth i a).1 = true) →
      ∃ pre,
        synthesize_voice_full synth text maxRetries =
          ((none, some (.chunkFailed (j + 1) (split_text_for_tts text 200).length
              (maxRetries + 1) (synth j maxRetries).2)),
            pre ++ (List.range (maxRetries + 1)).map (fun a => (j, a))) ∧
        ∀ p ∈ pre, p.1 < j) := by
  constructor
  · intro synthA maxRetries hA
    have h := retryChunk_all_fail synthA (maxRetries + 1) 0 none (by omega)
      (fun t ht => by
        rw [Nat.zero_add, hA t (by omega)]
        rfl)
    have hidx : 0 + (maxRetries + 1) - 1 = maxRetries := by omega
    rw [hidx] at h
    rw [h, hA maxRetries le_rfl]
  · intro synth text maxRetries j hj hempty hprev
    simp only [synthesize_voice_full]
    rw [if_neg (by
      simp only [List.isEmpty_iff]
      intro h
      rw [h] at hj
      simp at hj)]
    exact processChunks_first_fail synth maxRetries _ j
      (fun a ha => by
        rw [hempty a (by omega)]
        rfl)
      (fun i hi => (hprev i hi).imp (fun a ha => ⟨by omega, ha.2⟩))
      (split_text_for_tts text 200) 0 [] (by omega) (by simpa using hj)

theorem synthesize_voice_full_empty_audio_witness :
    retryChunk (fun _ => (some [], some ClientError.apiFailure)) 0 2 none =
      ((some [], some ClientError.apiFailure), 2) ∧
    ∃ pre,
      synthesize_voice_full (fun _ _ => (some [], none)) "ab".data 0 =
        ((none, some (.chunkFailed 1 (split_text_for_tts "ab".data 200).length
            1 none)),
          pre ++ (List.range 1).map (fun a => (0, a))) ∧
      ∀ p ∈ pre, p.1 < 0 :=
  ⟨synthesize_voice_full_empty_audio.1
      (fun _ => (some [], some ClientError.apiFailure)) 1 (by decide),
   synthesize_voice_full_empty_audio.2 (fun _ _ => (some [], none))
      "ab".data 0 0 (by decide) (by decide) (by decide)⟩

end LmStudioApp
